import Mathlib

/-!
# Session-description codec and signalling hand-off of `sigmaxue/p2p`

A shallow embedding of `src/main.go` and `src/server/main.go`.

* A Go `string` is a sequence of bytes: `GoString := List UInt8`.
* `bufio.Reader` over `strings.NewReader(txt)` is modelled by the bytes that have
  not been returned yet; `ReadSlice` / `ReadLine` follow the standard library with
  its default buffer of 4096 bytes.
* `fmt.Sprintf` is modelled for the `%s` verb, the only verb the program uses.
* Loops that Go writes as `for { ... }` take a fuel argument and return `none`
  when it runs out; termination theorems show that the fuel handed over by the
  entry points is always enough.
-/

namespace P2P

/-- A Go string: a sequence of bytes. -/
abbrev GoString := List UInt8

/-- Bytes of an ASCII literal of the source text. -/
def lit (s : String) : GoString := s.data.map (fun c => UInt8.ofNat c.toNat)

/-- The byte `'\n'`. -/
def LF : UInt8 := 10

/-- The byte `'\r'`. -/
def CR : UInt8 := 13

/-! ## `strings.Contains` -/

/-- Go `strings.HasPrefix(s, p)`: `s` begins with `p`. -/
def HasPrefix : GoString → GoString → Bool
  | _, [] => true
  | [], _ :: _ => false
  | a :: s, b :: p => a == b && HasPrefix s p

/-- Go `strings.Contains(s, substr)`: `substr` occurs somewhere within `s`. -/
def Contains : GoString → GoString → Bool
  | [], substr => HasPrefix [] substr
  | a :: s, substr => HasPrefix (a :: s) substr || Contains s substr

/-! ## `fmt.Sprintf` restricted to `%s` -/

/-- Go `fmt.Sprintf(format, args...)` for formats in which `%` occurs only in the
verb `%s`, with string arguments, as in the three format strings of the program.
A `%s` without an argument left prints `%!s(MISSING)` and a `%` that ends the
format prints `%!(NOVERB)`, as Go does; other verbs and arguments left over are
outside the model. -/
def Sprintf : GoString → List GoString → GoString
  | [], _ => []
  | [c], _ => if c = 37 then lit "%!(NOVERB)" else [c]
  | c :: d :: fmt, args =>
    if c = 37 ∧ d = 115 then
      match args with
      | [] => lit "%!s(MISSING)" ++ Sprintf fmt []
      | a :: rest => a ++ Sprintf fmt rest
    else c :: Sprintf (d :: fmt) args

/-! ## The data model -/

/-- The record `type SDP struct { ufrag string; pwd string; candidate []string }`.
A nil slice and an empty slice are both the empty list. -/
structure SDP where
  ufrag : GoString
  pwd : GoString
  candidate : List GoString
  deriving DecidableEq

/-! ## `MarshalSdp` -/

/-- Function `MarshalSdp` of `src/main.go` (lines 48-57) and `src/server/main.go` (42-51):
two `Sprintf` calls followed by one `out += Sprintf(...)` per candidate. -/
def MarshalSdp (sdp : SDP) : GoString :=
  let out := Sprintf (lit "ufrag:\n%s\n") [sdp.ufrag]
  let out := out ++ Sprintf (lit "pwd:\n%s\n") [sdp.pwd]
  sdp.candidate.foldl (fun out v => out ++ Sprintf (lit "candidate:\n%s\n") [v]) out

/-! ## `bufio.Reader` -/

/-- Default size of a `bufio.Reader` buffer (`defaultBufSize`). -/
def bufSize : Nat := 4096

/-- Errors a `bufio.Reader` over a `strings.Reader` can report. -/
inductive IOErr where
  | EOF
  | ErrBufferFull
  deriving DecidableEq

/-- Search of at most `n` bytes for `delim`: the bytes up to and including the
first `delim`, and the bytes after it. -/
def splitDelim (delim : UInt8) : Nat → GoString → Option (GoString × GoString)
  | 0, _ => none
  | _ + 1, [] => none
  | n + 1, b :: bs =>
    if b = delim then some ([b], bs)
    else
      match splitDelim delim n bs with
      | some (l, r) => some (b :: l, r)
      | none => none

/-- Go `(*bufio.Reader).ReadSlice(delim)` on the bytes not returned yet.
The reader refills its 4096-byte buffer from the underlying `strings.Reader`
until the delimiter is buffered, the buffer is full, or the input is exhausted:
* the delimiter is among the first 4096 unread bytes: the bytes through it;
* otherwise, with 4096 or more unread bytes: the first 4096 and `ErrBufferFull`;
* otherwise all unread bytes and `io.EOF`.
Result: the slice, the error, the bytes still unread. -/
def ReadSlice (delim : UInt8) (unread : GoString) : GoString × Option IOErr × GoString :=
  match splitDelim delim bufSize unread with
  | some (l, r) => (l, none, r)
  | none =>
    if bufSize ≤ unread.length then
      (unread.take bufSize, some IOErr.ErrBufferFull, unread.drop bufSize)
    else (unread, some IOErr.EOF, [])

/-- Result of `ReadLine`: `line, isPrefix, err` and the bytes still unread. -/
structure LineResult where
  line : GoString
  isPrefix : Bool
  err : Option IOErr
  rest : GoString
  deriving DecidableEq

/-- Go `(*bufio.Reader).ReadLine()` on the bytes not returned yet.
On `ErrBufferFull` the buffer content is returned with `isPrefix = true`, and a
final `'\r'` is put back so that a `"\r\n"` across the buffer end is seen by the
next call.  An empty slice with an error gives `nil` and the error.  Otherwise the
error is dropped and a final `"\n"` or `"\r\n"` is removed. -/
def ReadLine (unread : GoString) : LineResult :=
  match ReadSlice LF unread with
  | (line, some IOErr.ErrBufferFull, rest) =>
    if line.getLast? = some CR then ⟨line.dropLast, true, none, CR :: rest⟩
    else ⟨line, true, none, rest⟩
  | (line, err, rest) =>
    if line.length = 0 then ⟨[], false, err, rest⟩
    else if line.getLast? = some LF then
      let drop := if 1 < line.length ∧ line.dropLast.getLast? = some CR then 2 else 1
      ⟨line.take (line.length - drop), false, none, rest⟩
    else ⟨line, false, none, rest⟩

/-! ## `UnMarshalSdp` -/

/-- The `for { ... }` loop of `UnMarshalSdp` (`src/main.go` 73-84,
`src/server/main.go` 67-78): read a line, leave on `io.EOF`, and when the line
contains `candidate:` read one more line and append it. -/
def candidateLoop : Nat → GoString → List GoString → Option (List GoString)
  | 0, _, _ => none
  | fuel + 1, unread, candidate =>
    let r := ReadLine unread
    if r.err = some IOErr.EOF then some candidate
    else if Contains r.line (lit "candidate:") then
      let c := ReadLine r.rest
      candidateLoop fuel c.rest (candidate ++ [c.line])
    else candidateLoop fuel r.rest candidate

/-- The two header steps of `UnMarshalSdp` (`src/main.go` 60-72): the values of
`s.ufrag` and `s.pwd` and the bytes still unread when the loop starts. -/
def unmarshalHeader (txt : GoString) : GoString × GoString × GoString :=
  let r1 := ReadLine txt
  let (ufrag, unread) :=
    if Contains r1.line (lit "ufrag:") then
      let u := ReadLine r1.rest
      (u.line, u.rest)
    else ([], r1.rest)
  let r2 := ReadLine unread
  let (pwd, unread) :=
    if Contains r2.line (lit "pwd:") then
      let p := ReadLine r2.rest
      (p.line, p.rest)
    else ([], r2.rest)
  (ufrag, pwd, unread)

/-- Function `UnMarshalSdp` with the loop bounded by `fuel` iterations. -/
def UnMarshalSdpFuel (fuel : Nat) (txt : GoString) : Option SDP :=
  match unmarshalHeader txt with
  | (ufrag, pwd, unread) =>
    match candidateLoop fuel unread [] with
    | some candidate => some ⟨ufrag, pwd, candidate⟩
    | none => none

/-- Function `UnMarshalSdp` of `src/main.go` (58-87) and `src/server/main.go` (52-81).
The loop gets one iteration per input byte and one more. -/
def UnMarshalSdp (txt : GoString) : Option SDP :=
  UnMarshalSdpFuel (txt.length + 1) txt

/-! ## Specification-level vocabulary -/

/-- Encoding of the candidate list: one marker line and one value line each. -/
def encodeCandidates (cs : List GoString) : GoString :=
  cs.flatMap (fun c => lit "candidate:" ++ LF :: (c ++ [LF]))

/-- Text made of the given lines, each one terminated by `'\n'`. -/
def unlines (ls : List GoString) : GoString :=
  ls.flatMap (fun l => l ++ [LF])

/-- The lines of an encoded description with the given two header markers. -/
def encodedLines (ufragMarker pwdMarker : GoString) (x : SDP) : List GoString :=
  [ufragMarker, x.ufrag, pwdMarker, x.pwd] ++ x.candidate.flatMap (fun c => [lit "candidate:", c])

/-- The encoding as the specification words it, with the marker lines `fragment:`
and `secret:`. -/
def specEncode (x : SDP) : GoString :=
  unlines (encodedLines (lit "fragment:") (lit "secret:") x)

/-- A value that `ReadLine` gives back unchanged when a `'\n'` follows it: it has
no `'\n'`, does not end in `'\r'`, and is at most 4095 bytes long. -/
def LineSafe (v : GoString) : Prop :=
  LF ∉ v ∧ v.getLast? ≠ some CR ∧ v.length ≤ 4095

instance : DecidablePred LineSafe := fun v => by
  unfold LineSafe
  infer_instance

/-- A value without line break: neither `'\n'` nor `'\r'` occurs in it. -/
def NoLineBreak (v : GoString) : Prop := LF ∉ v ∧ CR ∉ v

instance : DecidablePred NoLineBreak := fun v => by
  unfold NoLineBreak
  infer_instance

/-- The string values of a description: `ufrag`, `pwd` and every candidate. -/
def SDP.values (x : SDP) : List GoString := x.ufrag :: x.pwd :: x.candidate

/-- A value that is not one of the marker lines `ufrag:`, `pwd:`, `candidate:`. -/
def NotMarkerLine (v : GoString) : Prop :=
  v ≠ lit "ufrag:" ∧ v ≠ lit "pwd:" ∧ v ≠ lit "candidate:"

instance : DecidablePred NotMarkerLine := fun v => by
  unfold NotMarkerLine
  infer_instance

/-- A value in which no marker text occurs, neither the markers of the program nor
the marker names of the specification. -/
def NoMarkerText (v : GoString) : Prop :=
  Contains v (lit "ufrag:") = false ∧ Contains v (lit "pwd:") = false
    ∧ Contains v (lit "candidate:") = false ∧ Contains v (lit "fragment:") = false
    ∧ Contains v (lit "secret:") = false

instance : DecidablePred NoMarkerText := fun v => by
  unfold NoMarkerText
  infer_instance

/-- The round-trip property as the specification states it: no value contains a
newline character and no value is a literal marker line. -/
def RoundTripAsStated (x : SDP) : Prop :=
  (∀ v ∈ x.values, LF ∉ v ∧ NotMarkerLine v) → UnMarshalSdp (MarshalSdp x) = some x

instance : DecidablePred RoundTripAsStated := fun x => by
  unfold RoundTripAsStated
  infer_instance

/-- All lines that successive `ReadLine` calls return before `io.EOF`; `n` bounds
their number and the number of unread bytes is always enough. -/
def allLines : Nat → GoString → List GoString
  | 0, _ => []
  | n + 1, unread =>
    let r := ReadLine unread
    if r.err = some IOErr.EOF then [] else r.line :: allLines n r.rest

/-- The lines `UnMarshalSdp` has left to read after its two header steps. -/
def linesAfterHeader (txt : GoString) : List GoString :=
  allLines (unmarshalHeader txt).2.2.length (unmarshalHeader txt).2.2

/-- Pair scanning over a list of lines: a line in marker position that satisfies
`isMarker` makes the line after it a candidate (the empty string when there is no
line after it) and scanning goes on behind that line; any other line in marker
position is skipped. -/
def scanPairs (isMarker : GoString → Bool) : List GoString → List GoString
  | [] => []
  | [l] => if isMarker l then [[]] else []
  | l :: v :: ls =>
    if isMarker l then v :: scanPairs isMarker ls else scanPairs isMarker (v :: ls)

/-- The marker test of the specification: the line equals `candidate:`. -/
def isMarkerLine (l : GoString) : Bool := l == lit "candidate:"

/-- The marker test of the program: `strings.Contains(line, "candidate:")`. -/
def containsMarker (l : GoString) : Bool := Contains l (lit "candidate:")

/-! ## The connectivity agent and the signalling steps

The `pion/ice` agent is an external collaborator.  What the program does with it is
recorded as the sequence of calls it makes; what the agent answers is a parameter. -/

/-- A call the program makes on the agent, on the HTTP response writer or on the
hand-off channel.  `AddRemoteCandidate v` stands for
`iceAgent.AddRemoteCandidate(c)` with `c` parsed from the string `v`. -/
inductive Call where
  | AddRemoteCandidate (v : GoString)
  | Dial (ufrag pwd : GoString)
  | Accept (ufrag pwd : GoString)
  | Restart (ufrag pwd : GoString)
  | SetRemoteCredentials (ufrag pwd : GoString)
  | GatherCandidates
  | Write (body : GoString)
  | Send (v : GoString)
  | Recv (v : GoString)
  deriving DecidableEq

/-- The answers of the `ice` package: whether `ice.UnmarshalCandidate(v)` returns a
candidate (`true`) or an error, and whether a call on the agent returns a nil
error (`true`) after the calls made so far. -/
structure Ice where
  UnmarshalCandidate : GoString → Bool
  ok : List Call → Call → Bool

/-- How a piece of the program ends. -/
inductive Outcome where
  | returned
  | panicked
  deriving DecidableEq

/-- The calls made and how the code ended. -/
structure Run where
  trace : List Call
  outcome : Outcome
  deriving DecidableEq

/-- The loop `for _, v := range sdpr.candidate { ... }` (`src/main.go` 99-109 and
270-280, `src/server/main.go` 101-111): parse `v`, panic on error, add the
candidate to the agent, panic on error.  Result: the calls made so far and
whether the loop ran to its end. -/
def addRemoteCandidates (ice : Ice) : List GoString → List Call → List Call × Bool
  | [], tr => (tr, true)
  | v :: vs, tr =>
    if ice.UnmarshalCandidate v then
      if ice.ok tr (Call.AddRemoteCandidate v) then
        addRemoteCandidates ice vs (tr ++ [Call.AddRemoteCandidate v])
      else (tr ++ [Call.AddRemoteCandidate v], false)
    else (tr, false)

/-- Every candidate of the list parses and is accepted by the agent when it is
added, the calls `tr` having been made before. -/
def accepted (ice : Ice) : List Call → List GoString → Bool
  | _, [] => true
  | tr, v :: vs =>
    ice.UnmarshalCandidate v && ice.ok tr (Call.AddRemoteCandidate v)
      && accepted ice (tr ++ [Call.AddRemoteCandidate v]) vs

/-- The responder after the HTTP response body has been read (`src/main.go`
262-284): decode the body, add the remote candidates, dial.  `tr` holds the calls
made before. -/
def responderConnect (ice : Ice) (body : GoString) (tr : List Call) : Option Run :=
  match UnMarshalSdp body with
  | none => none
  | some sdpr =>
    let remoteUfrag := sdpr.ufrag
    let remotePwd := sdpr.pwd
    match addRemoteCandidates ice sdpr.candidate tr with
    | (tr, false) => some ⟨tr, Outcome.panicked⟩
    | (tr, true) =>
      if ice.ok tr (Call.Dial remoteUfrag remotePwd) then
        some ⟨tr ++ [Call.Dial remoteUfrag remotePwd], Outcome.returned⟩
      else some ⟨tr ++ [Call.Dial remoteUfrag remotePwd], Outcome.panicked⟩

/-- An HTTP request as the handlers use it: whether `r.ParseForm()` fails, and
the values of the form field `sdp` (`r.PostForm["sdp"]`). -/
structure Request where
  parseFormFails : Bool
  sdpField : List GoString
  deriving DecidableEq

/-- The handler `remoteAuth` of `src/server/main.go` (84-125).  `sdp` is the
process-wide local description; the errors of `Restart` and
`SetRemoteCredentials` are not looked at. -/
def serverRemoteAuth (ice : Ice) (sdp : SDP) (r : Request) (tr : List Call) : Option Run :=
  if r.parseFormFails then some ⟨tr, Outcome.panicked⟩
  else
    match r.sdpField with
    | [] => some ⟨tr, Outcome.panicked⟩
    | field :: _ =>
      match UnMarshalSdp field with
      | none => none
      | some sdpr =>
        let tr := tr ++ [Call.Restart sdp.ufrag sdp.pwd]
        let tr := tr ++ [Call.SetRemoteCredentials sdpr.ufrag sdpr.pwd]
        if ice.ok tr Call.GatherCandidates then
          match addRemoteCandidates ice sdpr.candidate (tr ++ [Call.GatherCandidates]) with
          | (tr, false) => some ⟨tr, Outcome.panicked⟩
          | (tr, true) => some ⟨tr ++ [Call.Write (MarshalSdp sdp)], Outcome.returned⟩
        else some ⟨tr ++ [Call.GatherCandidates], Outcome.panicked⟩

/-- An agent that parses every candidate and never reports an error. -/
def Ice.agreeable : Ice := ⟨fun _ => true, fun _ _ => true⟩

/-! ## The initiator: handler and coordinator around the hand-off channel

The handler `remoteAuth` of `src/main.go` runs in a goroutine of the HTTP server,
the coordinator in `main`.  Both are modelled by their program points; a state of
the system holds both, the globals `remoteUfrag` and `remotePwd`, the content of
the buffered channel `remoteAuthChannel` and the calls made so far.  A step of the
system is a step of either goroutine. -/

/-- Capacity of `remoteAuthChannel` (`make(chan string, 3)`). -/
def chanCap : Nat := 3

/-- Program points of `remoteAuth` in `src/main.go` (90-125). -/
inductive HandlerPc where
  | start (r : Request)
  | adding (sdpr : SDP) (todo : List GoString)
  | sendUfrag (sdpr : SDP)
  | sendPwd (sdpr : SDP)
  | done
  | panicked
  deriving DecidableEq

/-- Program points of the controlling branch of `main` (`src/main.go` 226-237). -/
inductive MainPc where
  | recvUfrag
  | recvPwd
  | accept
  | connected
  | panicked
  deriving DecidableEq

/-- A state of the initiator process. -/
structure Sys where
  handler : HandlerPc
  main : MainPc
  remoteUfrag : GoString
  remotePwd : GoString
  chan : List GoString
  trace : List Call
  deriving DecidableEq

/-- One step of the handler, `none` when it cannot move: it has ended, or it
waits at a send on a full channel.  `sdp` is the local description. -/
def remoteAuthStep (ice : Ice) (sdp : SDP) (s : Sys) : Option Sys :=
  match s.handler with
  | HandlerPc.start r =>
    if r.parseFormFails then some { s with handler := HandlerPc.panicked }
    else
      match r.sdpField with
      | [] => some { s with handler := HandlerPc.panicked }
      | field :: _ =>
        match UnMarshalSdp field with
        | none => none
        | some sdpr => some { s with handler := HandlerPc.adding sdpr sdpr.candidate }
  | HandlerPc.adding sdpr (v :: vs) =>
    if ice.UnmarshalCandidate v then
      if ice.ok s.trace (Call.AddRemoteCandidate v) then
        some { s with handler := HandlerPc.adding sdpr vs,
                      trace := s.trace ++ [Call.AddRemoteCandidate v] }
      else some { s with handler := HandlerPc.panicked,
                         trace := s.trace ++ [Call.AddRemoteCandidate v] }
    else some { s with handler := HandlerPc.panicked }
  | HandlerPc.adding sdpr [] =>
    some { s with handler := HandlerPc.sendUfrag sdpr,
                  trace := s.trace ++ [Call.Write (MarshalSdp sdp)] }
  | HandlerPc.sendUfrag sdpr =>
    if s.chan.length < chanCap then
      some { s with handler := HandlerPc.sendPwd sdpr, chan := s.chan ++ [sdpr.ufrag],
                    trace := s.trace ++ [Call.Send sdpr.ufrag] }
    else none
  | HandlerPc.sendPwd sdpr =>
    if s.chan.length < chanCap then
      some { s with handler := HandlerPc.done, chan := s.chan ++ [sdpr.pwd],
                    trace := s.trace ++ [Call.Send sdpr.pwd] }
    else none
  | HandlerPc.done => none
  | HandlerPc.panicked => none

/-- One step of the coordinator, `none` when it cannot move: it has ended, or it
waits at a receive on an empty channel. -/
def mainStep (ice : Ice) (s : Sys) : Option Sys :=
  match s.main with
  | MainPc.recvUfrag =>
    match s.chan with
    | [] => none
    | v :: rest =>
      some { s with main := MainPc.recvPwd, remoteUfrag := v, chan := rest,
                    trace := s.trace ++ [Call.Recv v] }
  | MainPc.recvPwd =>
    match s.chan with
    | [] => none
    | v :: rest =>
      some { s with main := MainPc.accept, remotePwd := v, chan := rest,
                    trace := s.trace ++ [Call.Recv v] }
  | MainPc.accept =>
    if ice.ok s.trace (Call.Accept s.remoteUfrag s.remotePwd) then
      some { s with main := MainPc.connected,
                    trace := s.trace ++ [Call.Accept s.remoteUfrag s.remotePwd] }
    else some { s with main := MainPc.panicked,
                       trace := s.trace ++ [Call.Accept s.remoteUfrag s.remotePwd] }
  | MainPc.connected => none
  | MainPc.panicked => none

/-- The states one step away: a step of the handler or a step of the coordinator. -/
def next (ice : Ice) (sdp : SDP) (s : Sys) : List Sys :=
  (remoteAuthStep ice sdp s).toList ++ (mainStep ice s).toList

/-- The state in which the request `r` has just reached the handler and the
coordinator waits at its first receive, the calls `tr` having been made. -/
def handoffStart (r : Request) (tr : List Call) : Sys :=
  ⟨HandlerPc.start r, MainPc.recvUfrag, [], [], [], tr⟩

/-- The states the system can get to from `s`. -/
def Reachable (ice : Ice) (sdp : SDP) (s : Sys) : Sys → Prop :=
  Relation.ReflTransGen (fun a b => b ∈ next ice sdp a) s

/-- Steps the handler has left at most. -/
def handlerLeft : HandlerPc → Nat
  | HandlerPc.start r =>
    match r.sdpField with
    | [] => 1
    | field :: _ =>
      match UnMarshalSdp field with
      | none => 1
      | some sdpr => sdpr.candidate.length + 4
  | HandlerPc.adding _ todo => todo.length + 3
  | HandlerPc.sendUfrag _ => 2
  | HandlerPc.sendPwd _ => 1
  | HandlerPc.done => 0
  | HandlerPc.panicked => 0

/-- Steps the coordinator has left at most. -/
def mainLeft : MainPc → Nat
  | MainPc.recvUfrag => 3
  | MainPc.recvPwd => 2
  | MainPc.accept => 1
  | MainPc.connected => 0
  | MainPc.panicked => 0

/-- Steps the system has left at most. -/
def stepsLeft (s : Sys) : Nat := handlerLeft s.handler + mainLeft s.main

/-- The calls of a completed hand-off for the decoded description `sdpr`: the
candidates are added, the response is written, ufrag and pwd are sent in this
order and received in this order, and `Accept` is called.  The second send and the
first receive may come in either order. -/
def handoffTraces (sdp sdpr : SDP) (tr : List Call) : List (List Call) :=
  let base := tr ++ sdpr.candidate.map Call.AddRemoteCandidate ++ [Call.Write (MarshalSdp sdp)]
  [ base ++ [Call.Send sdpr.ufrag, Call.Send sdpr.pwd, Call.Recv sdpr.ufrag, Call.Recv sdpr.pwd,
      Call.Accept sdpr.ufrag sdpr.pwd],
    base ++ [Call.Send sdpr.ufrag, Call.Recv sdpr.ufrag, Call.Send sdpr.pwd, Call.Recv sdpr.pwd,
      Call.Accept sdpr.ufrag sdpr.pwd] ]

/-- The states of a hand-off in which every candidate is accepted. -/
inductive HandoffInv (ice : Ice) (sdp sdpr : SDP) (tr : List Call) : Sys → Prop where
  | start (r : Request) (field : GoString) (more : List GoString)
      (hr : r = ⟨false, field :: more⟩) (hd : UnMarshalSdp field = some sdpr) :
      HandoffInv ice sdp sdpr tr ⟨HandlerPc.start r, MainPc.recvUfrag, [], [], [], tr⟩
  | adding (added todo : List GoString) (hc : sdpr.candidate = added ++ todo)
      (ha : accepted ice (tr ++ added.map Call.AddRemoteCandidate) todo = true) :
      HandoffInv ice sdp sdpr tr ⟨HandlerPc.adding sdpr todo, MainPc.recvUfrag, [], [], [],
        tr ++ added.map Call.AddRemoteCandidate⟩
  | written :
      HandoffInv ice sdp sdpr tr ⟨HandlerPc.sendUfrag sdpr, MainPc.recvUfrag, [], [], [],
        tr ++ sdpr.candidate.map Call.AddRemoteCandidate ++ [Call.Write (MarshalSdp sdp)]⟩
  | sentUfrag :
      HandoffInv ice sdp sdpr tr ⟨HandlerPc.sendPwd sdpr, MainPc.recvUfrag, [], [], [sdpr.ufrag],
        tr ++ sdpr.candidate.map Call.AddRemoteCandidate ++ [Call.Write (MarshalSdp sdp)]
          ++ [Call.Send sdpr.ufrag]⟩
  | sentBoth :
      HandoffInv ice sdp sdpr tr ⟨HandlerPc.done, MainPc.recvUfrag, [], [],
        [sdpr.ufrag, sdpr.pwd],
        tr ++ sdpr.candidate.map Call.AddRemoteCandidate ++ [Call.Write (MarshalSdp sdp)]
          ++ [Call.Send sdpr.ufrag, Call.Send sdpr.pwd]⟩
  | gotUfragEarly :
      HandoffInv ice sdp sdpr tr ⟨HandlerPc.sendPwd sdpr, MainPc.recvPwd, sdpr.ufrag, [], [],
        tr ++ sdpr.candidate.map Call.AddRemoteCandidate ++ [Call.Write (MarshalSdp sdp)]
          ++ [Call.Send sdpr.ufrag, Call.Recv sdpr.ufrag]⟩
  | gotUfrag (mid : List Call)
      (hm : mid = [Call.Send sdpr.ufrag, Call.Send sdpr.pwd, Call.Recv sdpr.ufrag]
        ∨ mid = [Call.Send sdpr.ufrag, Call.Recv sdpr.ufrag, Call.Send sdpr.pwd]) :
      HandoffInv ice sdp sdpr tr ⟨HandlerPc.done, MainPc.recvPwd, sdpr.ufrag, [], [sdpr.pwd],
        tr ++ sdpr.candidate.map Call.AddRemoteCandidate ++ [Call.Write (MarshalSdp sdp)]
          ++ mid⟩
  | gotBoth (mid : List Call)
      (hm : mid = [Call.Send sdpr.ufrag, Call.Send sdpr.pwd, Call.Recv sdpr.ufrag]
        ∨ mid = [Call.Send sdpr.ufrag, Call.Recv sdpr.ufrag, Call.Send sdpr.pwd]) :
      HandoffInv ice sdp sdpr tr ⟨HandlerPc.done, MainPc.accept, sdpr.ufrag, sdpr.pwd, [],
        tr ++ sdpr.candidate.map Call.AddRemoteCandidate ++ [Call.Write (MarshalSdp sdp)]
          ++ mid ++ [Call.Recv sdpr.pwd]⟩
  | accepted (mid : List Call) (m : MainPc)
      (hm : mid = [Call.Send sdpr.ufrag, Call.Send sdpr.pwd, Call.Recv sdpr.ufrag]
        ∨ mid = [Call.Send sdpr.ufrag, Call.Recv sdpr.ufrag, Call.Send sdpr.pwd])
      (hmain : m = MainPc.connected ∨ m = MainPc.panicked) :
      HandoffInv ice sdp sdpr tr ⟨HandlerPc.done, m, sdpr.ufrag, sdpr.pwd, [],
        tr ++ sdpr.candidate.map Call.AddRemoteCandidate ++ [Call.Write (MarshalSdp sdp)]
          ++ mid ++ [Call.Recv sdpr.pwd] ++ [Call.Accept sdpr.ufrag sdpr.pwd]⟩

/-! ## Basic facts about the reader -/

theorem splitDelim_line (v rest : GoString) (n : Nat) (hv : LF ∉ v) (hn : v.length < n) :
    splitDelim LF n (v ++ LF :: rest) = some (v ++ [LF], rest) := by
  induction v generalizing n with
  | nil =>
    cases n with
    | zero => simp at hn
    | succ n => simp [splitDelim]
  | cons b v ih =>
    cases n with
    | zero => simp at hn
    | succ n =>
      have hb : b ≠ LF := fun h => hv (by simp [h])
      have hv2 : LF ∉ v := fun h => hv (by simp [h])
      have hn2 : v.length < n := by simpa using hn
      simp [splitDelim, hb, ih n hv2 hn2]

theorem splitDelim_none (v : GoString) (n : Nat) (hv : LF ∉ v) :
    splitDelim LF n v = none := by
  induction v generalizing n with
  | nil => cases n <;> simp [splitDelim]
  | cons b v ih =>
    cases n with
    | zero => simp [splitDelim]
    | succ n =>
      have hb : b ≠ LF := fun h => hv (by simp [h])
      have hv2 : LF ∉ v := fun h => hv (by simp [h])
      simp [splitDelim, hb, ih n hv2]

/-- A complete line of at most 4095 bytes is returned whole, without its `'\n'`. -/
theorem ReadLine_line (v rest : GoString) (hv : LF ∉ v) (hlen : v.length ≤ 4095)
    (hcr : v.getLast? ≠ some CR) :
    ReadLine (v ++ LF :: rest) = ⟨v, false, none, rest⟩ := by
  have hs : ReadSlice LF (v ++ LF :: rest) = (v ++ [LF], none, rest) := by
    simp [ReadSlice, splitDelim_line v rest bufSize hv (by simp [bufSize]; omega)]
  simp [ReadLine, hs, hcr]

theorem ReadLine_nil : ReadLine [] = ⟨[], false, some IOErr.EOF, []⟩ := by decide

theorem Sprintf_ufrag (u : GoString) :
    Sprintf (lit "ufrag:\n%s\n") [u] = lit "ufrag:" ++ LF :: (u ++ [LF]) := by
  simp [Sprintf, lit, LF]

theorem Sprintf_pwd (u : GoString) :
    Sprintf (lit "pwd:\n%s\n") [u] = lit "pwd:" ++ LF :: (u ++ [LF]) := by
  simp [Sprintf, lit, LF]

theorem Sprintf_candidate (u : GoString) :
    Sprintf (lit "candidate:\n%s\n") [u] = lit "candidate:" ++ LF :: (u ++ [LF]) := by
  simp [Sprintf, lit, LF]

theorem foldl_candidates (cs : List GoString) (out : GoString) :
    cs.foldl (fun out v => out ++ Sprintf (lit "candidate:\n%s\n") [v]) out
      = out ++ encodeCandidates cs := by
  induction cs generalizing out with
  | nil => simp [encodeCandidates]
  | cons c cs ih =>
    rw [List.foldl_cons, ih]
    simp [Sprintf_candidate, encodeCandidates]

theorem MarshalSdp_eq (x : SDP) :
    MarshalSdp x = lit "ufrag:" ++ LF :: (x.ufrag ++ LF :: (lit "pwd:" ++ LF :: (x.pwd
      ++ LF :: encodeCandidates x.candidate))) := by
  simp only [MarshalSdp, foldl_candidates, Sprintf_ufrag, Sprintf_pwd]
  simp

/-! ## Termination of the scanning loop -/

theorem splitDelim_some (d : UInt8) (n : Nat) (u l r : GoString)
    (h : splitDelim d n u = some (l, r)) : u = l ++ r ∧ l ≠ [] := by
  induction u generalizing n l r with
  | nil => cases n <;> simp [splitDelim] at h
  | cons b bs ih =>
    cases n with
    | zero => simp [splitDelim] at h
    | succ n =>
      simp only [splitDelim] at h
      split at h
      · simp only [Option.some.injEq, Prod.mk.injEq] at h
        obtain ⟨h1, h2⟩ := h
        subst h1 h2
        simp
      · split at h
        · rename_i l2 r2 heq
          simp only [Option.some.injEq, Prod.mk.injEq] at h
          obtain ⟨h1, h2⟩ := h
          subst h1 h2
          have := ih n l2 r2 heq
          simp [this.1]
        · simp at h

/-- The three outcomes of `ReadSlice`. -/
theorem ReadSlice_cases (u : GoString) :
    (∃ l r, ReadSlice LF u = (l, none, r) ∧ u = l ++ r ∧ l ≠ []) ∨
    (ReadSlice LF u = (u.take bufSize, some IOErr.ErrBufferFull, u.drop bufSize)
      ∧ bufSize ≤ u.length) ∨
    (ReadSlice LF u = (u, some IOErr.EOF, []) ∧ u.length < bufSize) := by
  unfold ReadSlice
  cases hs : splitDelim LF bufSize u with
  | some p =>
    obtain ⟨l, r⟩ := p
    have := splitDelim_some _ _ _ _ _ hs
    exact Or.inl ⟨l, r, rfl, this.1, this.2⟩
  | none =>
    by_cases hb : bufSize ≤ u.length
    · exact Or.inr (Or.inl ⟨by simp [hb], hb⟩)
    · exact Or.inr (Or.inr ⟨by simp [hb], by omega⟩)

/-- Function `ReadLine` reports `io.EOF` exactly when nothing is left to read. -/
theorem ReadLine_err_iff (u : GoString) : (ReadLine u).err = some IOErr.EOF ↔ u = [] := by
  constructor
  · intro h
    by_contra hne
    have hlen : 0 < u.length := List.length_pos.mpr hne
    rcases ReadSlice_cases u with ⟨l, r, hs, -, hl⟩ | ⟨hs, -⟩ | ⟨hs, -⟩
    · have hl2 : l.length ≠ 0 := by simpa using hl
      simp only [ReadLine, hs, hl2, if_false] at h
      split at h <;> simp at h
    · simp only [ReadLine, hs] at h
      split at h <;> simp at h
    · have hl2 : u.length ≠ 0 := by omega
      simp only [ReadLine, hs, hl2, if_false] at h
      split at h <;> simp at h
  · rintro rfl
    decide

/-- Every `ReadLine` on a non-empty input consumes at least one byte. -/
theorem ReadLine_rest_lt (u : GoString) (hne : u ≠ []) :
    (ReadLine u).rest.length < u.length := by
  have hlen : 0 < u.length := List.length_pos.mpr hne
  rcases ReadSlice_cases u with ⟨l, r, hs, hu, hl⟩ | ⟨hs, hb⟩ | ⟨hs, -⟩
  · have hl2 : 0 < l.length := List.length_pos.mpr hl
    have hu2 : u.length = l.length + r.length := by rw [hu]; simp
    simp only [ReadLine, hs]
    split
    · simp only; omega
    · split <;> simp only <;> omega
  · simp only [bufSize] at hb
    simp only [ReadLine, hs]
    split <;> simp [bufSize] <;> omega
  · simp only [ReadLine, hs]
    split
    · simpa using hlen
    · split <;> simpa using hlen

theorem ReadLine_rest_le (u : GoString) : (ReadLine u).rest.length ≤ u.length := by
  by_cases h : u = []
  · subst h; decide
  · exact Nat.le_of_lt (ReadLine_rest_lt u h)

/-- With more fuel than unread bytes the loop leaves through its `io.EOF` exit. -/
theorem candidateLoop_terminates (fuel : Nat) (u : GoString) (acc : List GoString)
    (h : u.length < fuel) : ∃ r, candidateLoop fuel u acc = some r := by
  induction fuel generalizing u acc with
  | zero => omega
  | succ fuel ih =>
    unfold candidateLoop
    by_cases he : (ReadLine u).err = some IOErr.EOF
    · simp [he]
    · have hne : u ≠ [] := fun h0 => he ((ReadLine_err_iff u).mpr h0)
      have h1 := ReadLine_rest_lt u hne
      have h2 := ReadLine_rest_le (ReadLine u).rest
      simp only [he, if_false]
      split
      · exact ih _ _ (by omega)
      · exact ih _ _ (by omega)

/-- More fuel does not change a result already reached. -/
theorem candidateLoop_mono (fuel : Nat) (u : GoString) (acc r : List GoString)
    (h : candidateLoop fuel u acc = some r) (k : Nat) :
    candidateLoop (fuel + k) u acc = some r := by
  induction fuel generalizing u acc with
  | zero => simp [candidateLoop] at h
  | succ fuel ih =>
    have e : fuel + 1 + k = (fuel + k) + 1 := by omega
    rw [e]
    unfold candidateLoop at h ⊢
    by_cases he : (ReadLine u).err = some IOErr.EOF
    · simpa [he] using h
    · simp only [he, if_false] at h ⊢
      split
      · rename_i hc
        simp only [hc, if_true] at h
        exact ih _ _ h
      · rename_i hc
        simp only [hc] at h
        exact ih _ _ h

theorem unmarshalHeader_rest_le (txt : GoString) :
    (unmarshalHeader txt).2.2.length ≤ txt.length := by
  have a := ReadLine_rest_le txt
  have b := ReadLine_rest_le (ReadLine txt).rest
  have c := ReadLine_rest_le (ReadLine (ReadLine txt).rest).rest
  have d := ReadLine_rest_le (ReadLine (ReadLine (ReadLine txt).rest).rest).rest
  by_cases h1 : Contains (ReadLine txt).line (lit "ufrag:") = true
  · by_cases h2 : Contains (ReadLine (ReadLine (ReadLine txt).rest).rest).line (lit "pwd:") = true
    · simp only [unmarshalHeader, h1, h2, if_true]
      omega
    · simp only [unmarshalHeader, h1, h2, if_true, if_false, Bool.false_eq_true]
      omega
  · by_cases h2 : Contains (ReadLine (ReadLine txt).rest).line (lit "pwd:") = true
    · simp only [unmarshalHeader, h1, h2, if_true, if_false, Bool.false_eq_true]
      omega
    · simp only [unmarshalHeader, h1, h2, if_false, Bool.false_eq_true]
      omega

/-- Function `UnMarshalSdpFuel` returns as soon as the fuel exceeds the input length. -/
theorem UnMarshalSdpFuel_terminates (fuel : Nat) (txt : GoString) (h : txt.length < fuel) :
    ∃ s, UnMarshalSdpFuel fuel txt = some s := by
  have hle := unmarshalHeader_rest_le txt
  obtain ⟨r, hr⟩ := candidateLoop_terminates fuel (unmarshalHeader txt).2.2 [] (by omega)
  exact ⟨⟨(unmarshalHeader txt).1, (unmarshalHeader txt).2.1, r⟩, by simp [UnMarshalSdpFuel, hr]⟩

theorem UnMarshalSdpFuel_mono (fuel : Nat) (txt : GoString) (s : SDP)
    (h : UnMarshalSdpFuel fuel txt = some s) (k : Nat) :
    UnMarshalSdpFuel (fuel + k) txt = some s := by
  unfold UnMarshalSdpFuel at h ⊢
  rcases hh : unmarshalHeader txt with ⟨a, b, c⟩
  rw [hh] at h
  simp only at h ⊢
  cases hc : candidateLoop fuel c [] with
  | none => simp [hc] at h
  | some r =>
    rw [candidateLoop_mono _ _ _ _ hc k]
    simpa [hc] using h

/-- A result reached with some amount of fuel is the result of `UnMarshalSdp`. -/
theorem UnMarshalSdp_of_fuel (fuel : Nat) (txt : GoString) (s : SDP)
    (h : UnMarshalSdpFuel fuel txt = some s) : UnMarshalSdp txt = some s := by
  obtain ⟨t, ht⟩ := UnMarshalSdpFuel_terminates (txt.length + 1) txt (by omega)
  have h1 := UnMarshalSdpFuel_mono _ _ _ h (txt.length + 1)
  have h2 := UnMarshalSdpFuel_mono _ _ _ ht fuel
  rw [Nat.add_comm] at h2
  rw [h1] at h2
  rw [UnMarshalSdp, ht, ← h2]

/-! ## Decoding an encoded description -/

theorem LineSafe_of_noLineBreak (v : GoString) (h : NoLineBreak v) (hl : v.length ≤ 4095) :
    LineSafe v :=
  ⟨h.1, fun hc => h.2 (List.mem_of_getLast?_eq_some hc), hl⟩

theorem ReadLine_safe (v rest : GoString) (h : LineSafe v) :
    ReadLine (v ++ LF :: rest) = ⟨v, false, none, rest⟩ :=
  ReadLine_line v rest h.1 h.2.2 h.2.1

theorem ReadLine_marker_ufrag (rest : GoString) :
    ReadLine (lit "ufrag:" ++ LF :: rest) = ⟨lit "ufrag:", false, none, rest⟩ :=
  ReadLine_safe _ _ (by decide)

theorem ReadLine_marker_pwd (rest : GoString) :
    ReadLine (lit "pwd:" ++ LF :: rest) = ⟨lit "pwd:", false, none, rest⟩ :=
  ReadLine_safe _ _ (by decide)

theorem ReadLine_marker_candidate (rest : GoString) :
    ReadLine (lit "candidate:" ++ LF :: rest) = ⟨lit "candidate:", false, none, rest⟩ :=
  ReadLine_safe _ _ (by decide)

/-- The loop on encoded candidates followed by `tail`: every candidate is appended
and the loop goes on with `tail`. -/
theorem candidateLoop_encoded (cs : List GoString) (tail : GoString) (acc : List GoString)
    (k : Nat) (h : ∀ c ∈ cs, LineSafe c) :
    candidateLoop (cs.length + k) (encodeCandidates cs ++ tail) acc
      = candidateLoop k tail (acc ++ cs) := by
  induction cs generalizing acc with
  | nil => simp [encodeCandidates]
  | cons c cs ih =>
    have e : (c :: cs).length + k = (cs.length + k) + 1 := by simp; omega
    have hc : LineSafe c := h c (by simp)
    have hcs : ∀ d ∈ cs, LineSafe d := fun d hd => h d (by simp [hd])
    have enc : encodeCandidates (c :: cs) ++ tail
        = lit "candidate:" ++ LF :: (c ++ LF :: (encodeCandidates cs ++ tail)) := by
      simp [encodeCandidates]
    have hm : Contains (lit "candidate:") (lit "candidate:") = true := by decide
    rw [e, enc, candidateLoop]
    simp only [ReadLine_marker_candidate, ReadLine_safe _ _ hc, hm, if_true]
    rw [ih _ hcs]
    simp

/-- The header steps on an encoded description followed by `tail`. -/
theorem unmarshalHeader_encoded (x : SDP) (tail : GoString) (hu : LineSafe x.ufrag)
    (hp : LineSafe x.pwd) :
    unmarshalHeader (MarshalSdp x ++ tail)
      = (x.ufrag, x.pwd, encodeCandidates x.candidate ++ tail) := by
  have e : MarshalSdp x ++ tail = lit "ufrag:" ++ LF :: (x.ufrag ++ LF :: (lit "pwd:" ++ LF ::
      (x.pwd ++ LF :: (encodeCandidates x.candidate ++ tail)))) := by
    simp [MarshalSdp_eq]
  have h1 : Contains (lit "ufrag:") (lit "ufrag:") = true := by decide
  have h2 : Contains (lit "pwd:") (lit "pwd:") = true := by decide
  rw [e, unmarshalHeader]
  simp only [ReadLine_marker_ufrag, ReadLine_safe _ _ hu, ReadLine_marker_pwd,
    ReadLine_safe _ _ hp, h1, h2, if_true]

/-- Decoding an encoded description followed by `tail` with `k` iterations left
for `tail`. -/
theorem UnMarshalSdpFuel_encoded (x : SDP) (tail : GoString) (k : Nat) (hu : LineSafe x.ufrag)
    (hp : LineSafe x.pwd) (hc : ∀ c ∈ x.candidate, LineSafe c) :
    UnMarshalSdpFuel (x.candidate.length + k) (MarshalSdp x ++ tail)
      = (candidateLoop k tail x.candidate).map (fun cs => ⟨x.ufrag, x.pwd, cs⟩) := by
  rw [UnMarshalSdpFuel, unmarshalHeader_encoded x tail hu hp]
  simp only [candidateLoop_encoded _ _ _ _ hc, List.nil_append]
  cases candidateLoop k tail x.candidate <;> rfl

/-- Round trip for values that `ReadLine` returns unchanged. -/
theorem roundtrip_lineSafe (x : SDP) (hu : LineSafe x.ufrag) (hp : LineSafe x.pwd)
    (hc : ∀ c ∈ x.candidate, LineSafe c) : UnMarshalSdp (MarshalSdp x) = some x := by
  apply UnMarshalSdp_of_fuel (x.candidate.length + 1)
  have := UnMarshalSdpFuel_encoded x [] 1 hu hp hc
  simp only [List.append_nil] at this
  rw [this]
  simp [candidateLoop, ReadLine_nil]

theorem splitDelim_none_prefix (v rest : GoString) (n : Nat) (hv : LF ∉ v)
    (hn : n ≤ v.length) : splitDelim LF n (v ++ rest) = none := by
  induction v generalizing n with
  | nil =>
    have : n = 0 := by simpa using hn
    subst this
    simp [splitDelim]
  | cons b v ih =>
    cases n with
    | zero => simp [splitDelim]
    | succ n =>
      have hb : b ≠ LF := fun h => hv (by simp [h])
      have hv2 : LF ∉ v := fun h => hv (by simp [h])
      have hn2 : n ≤ v.length := by simpa using hn
      simp [splitDelim, hb, ih n hv2 hn2]

/-- A line of exactly 4096 bytes fills the buffer: it is returned as a prefix and
its `'\n'` stays unread. -/
theorem ReadLine_full (v rest : GoString) (hv : LF ∉ v) (hlen : v.length = 4096)
    (hcr : v.getLast? ≠ some CR) :
    ReadLine (v ++ rest) = ⟨v, true, none, rest⟩ := by
  have hs : ReadSlice LF (v ++ rest) = (v, some IOErr.ErrBufferFull, rest) := by
    have h1 := splitDelim_none_prefix v rest bufSize hv (by simp [bufSize, hlen])
    have h2 : bufSize ≤ (v ++ rest).length := by simp [bufSize, hlen]
    have h3 : List.take bufSize (v ++ rest) = v := by
      rw [show bufSize = v.length by simp [bufSize, hlen]]
      exact List.take_left' rfl
    have h4 : List.drop bufSize (v ++ rest) = rest := by
      rw [show bufSize = v.length by simp [bufSize, hlen]]
      exact List.drop_left' rfl
    simp only [ReadSlice, h1, h2, if_true, h3, h4]
  simp [ReadLine, hs, hcr]

/-- The bound of `allLines` does not matter once it covers the unread bytes. -/
theorem allLines_fuel (m : Nat) : ∀ (u : GoString) (n : Nat), u.length ≤ m → u.length ≤ n →
    allLines n u = allLines u.length u := by
  induction m with
  | zero =>
    intro u n hm _
    have hu : u = [] := List.length_eq_zero.mp (by omega)
    subst hu
    cases n <;> simp [allLines, ReadLine_nil]
  | succ m ih =>
    intro u n hm hn
    by_cases hu : u = []
    · subst hu
      cases n <;> simp [allLines, ReadLine_nil]
    · have hlen : 0 < u.length := List.length_pos.mpr hu
      have he : (ReadLine u).err ≠ some IOErr.EOF := fun h => hu ((ReadLine_err_iff u).mp h)
      have h1 := ReadLine_rest_lt u hu
      obtain ⟨n1, rfl⟩ : ∃ n1, n = n1 + 1 := ⟨n - 1, by omega⟩
      obtain ⟨k, hk⟩ : ∃ k, u.length = k + 1 := ⟨u.length - 1, by omega⟩
      rw [hk, allLines, allLines]
      simp only [he, if_false]
      rw [ih _ n1 (by omega) (by omega), ih _ k (by omega) (by omega)]

theorem scan_refines (m : Nat) : ∀ (u : GoString), u.length ≤ m →
    ∀ (n fuel : Nat) (acc : List GoString), u.length ≤ n → u.length < fuel →
      candidateLoop fuel u acc = some (acc ++ scanPairs containsMarker (allLines n u)) := by
  induction m using Nat.strong_induction_on with
  | _ m ih =>
    intro u hm n fuel acc hn hf
    cases fuel with
    | zero => omega
    | succ f =>
      by_cases hu : u = []
      · subst hu
        cases n <;> simp [candidateLoop, allLines, ReadLine_nil, scanPairs]
      · have hlen : 0 < u.length := List.length_pos.mpr hu
        have he : (ReadLine u).err ≠ some IOErr.EOF := fun h => hu ((ReadLine_err_iff u).mp h)
        have h1 := ReadLine_rest_lt u hu
        cases n with
        | zero => omega
        | succ n1 =>
          rw [candidateLoop, allLines]
          simp only [he, if_false]
          by_cases hc : Contains (ReadLine u).line (lit "candidate:") = true
          · have hc2 : containsMarker (ReadLine u).line = true := hc
            simp only [hc, if_true]
            by_cases hr : (ReadLine u).rest = []
            · rw [hr]
              have hf1 : ∃ g, f = g + 1 := ⟨f - 1, by omega⟩
              obtain ⟨g, rfl⟩ := hf1
              cases n1 <;> simp [candidateLoop, allLines, ReadLine_nil, scanPairs, hc2]
            · have hrl : 0 < (ReadLine u).rest.length := List.length_pos.mpr hr
              have he2 : (ReadLine (ReadLine u).rest).err ≠ some IOErr.EOF :=
                fun h => hr ((ReadLine_err_iff _).mp h)
              have h2 := ReadLine_rest_lt _ hr
              cases n1 with
              | zero => omega
              | succ n2 =>
                rw [allLines]
                simp only [he2, if_false, scanPairs, hc2, if_true]
                rw [ih (ReadLine (ReadLine u).rest).rest.length (by omega) _ le_rfl n2 f _
                  (by omega) (by omega)]
                simp
          · have hc2 : containsMarker (ReadLine u).line = false := by
              simpa [containsMarker] using hc
            simp only [hc, if_false]
            rw [ih (ReadLine u).rest.length (by omega) _ le_rfl n1 f acc (by omega) (by omega)]
            cases hl : allLines n1 (ReadLine u).rest with
            | nil => simp [scanPairs, hc2]
            | cons v ls => simp [scanPairs, hc2]

/-! ## Properties of the codec -/

/-- C1, as stated, fails.  Two descriptions whose values contain no newline and no
marker text do not survive the round trip: a `ufrag` ending in a carriage return
loses it, and behind a `ufrag` of 4096 bytes the password is lost. -/
theorem roundtrip_as_stated_fails :
    (∀ v ∈ (SDP.mk (lit "a\r") (lit "p") []).values, LF ∉ v ∧ NoMarkerText v)
    ∧ ¬ RoundTripAsStated ⟨lit "a\r", lit "p", []⟩
    ∧ UnMarshalSdp (MarshalSdp ⟨lit "a\r", lit "p", []⟩) = some ⟨lit "a", lit "p", []⟩
    ∧ (∀ v ∈ (SDP.mk (List.replicate 4096 97) (lit "p") []).values,
        NoLineBreak v ∧ NoMarkerText v)
    ∧ ¬ RoundTripAsStated ⟨List.replicate 4096 97, lit "p", []⟩
    ∧ UnMarshalSdp (MarshalSdp ⟨List.replicate 4096 97, lit "p", []⟩)
        = some ⟨List.replicate 4096 97, [], []⟩ := by
  refine ⟨by decide, by decide, by decide, by decide!, by decide!, by decide!⟩

/-- C1, amended: a description whose values contain no newline, are no marker
lines, do not end in a carriage return and are at most 4095 bytes long is
reproduced by decoding its encoding. -/
theorem roundtrip_amended (x : SDP)
    (h : ∀ v ∈ x.values, LF ∉ v ∧ NotMarkerLine v)
    (hcr : ∀ v ∈ x.values, v.getLast? ≠ some CR)
    (hlen : ∀ v ∈ x.values, v.length ≤ 4095) :
    UnMarshalSdp (MarshalSdp x) = some x := by
  have hs : ∀ v ∈ x.values, LineSafe v := fun v hv => ⟨(h v hv).1, hcr v hv, hlen v hv⟩
  exact roundtrip_lineSafe x (hs _ (by simp [SDP.values])) (hs _ (by simp [SDP.values]))
    (fun c hc => hs c (by simp [SDP.values, hc]))

theorem roundtrip_amended_witness :
    (∀ v ∈ (SDP.mk (lit "u2") (lit "p2") [lit "cand-A", lit "a\rb"]).values,
        LF ∉ v ∧ NotMarkerLine v)
    ∧ UnMarshalSdp (MarshalSdp ⟨lit "u2", lit "p2", [lit "cand-A", lit "a\rb"]⟩)
        = some ⟨lit "u2", lit "p2", [lit "cand-A", lit "a\rb"]⟩ :=
  ⟨by decide, roundtrip_amended _ (by decide) (by decide) (by decide)⟩

/-- C2, as stated, fails: the marker lines the program writes are `ufrag:` and
`pwd:`, not `fragment:` and `secret:`. -/
theorem MarshalSdp_not_spec_markers :
    MarshalSdp ⟨lit "u1", lit "p1", [lit "cand-A"]⟩
      ≠ specEncode ⟨lit "u1", lit "p1", [lit "cand-A"]⟩
    ∧ MarshalSdp ⟨lit "u1", lit "p1", [lit "cand-A"]⟩
      = lit "ufrag:\nu1\npwd:\np1\ncandidate:\ncand-A\n" := by
  decide

/-- C2, amended: the encoding is exactly the line `ufrag:`, the ufrag value, the
line `pwd:`, the pwd value and then, for each candidate in list order, the line
`candidate:` and the candidate, every line terminated by a newline. -/
theorem MarshalSdp_lines (x : SDP) :
    MarshalSdp x = unlines (encodedLines (lit "ufrag:") (lit "pwd:") x) := by
  rw [MarshalSdp_eq]
  simp [unlines, encodedLines, encodeCandidates, List.flatMap_append, List.flatMap_assoc]

/-- C3, as stated, fails: the line `xcandidate:y` is not equal to the marker, yet
it makes the line after it a candidate, because the program tests the line in
marker position with `strings.Contains`. -/
theorem candidate_marker_equality_fails :
    linesAfterHeader (lit "ufrag:\nu\npwd:\np\nxcandidate:y\nc\n") = [lit "xcandidate:y", lit "c"]
    ∧ scanPairs isMarkerLine (linesAfterHeader (lit "ufrag:\nu\npwd:\np\nxcandidate:y\nc\n")) = []
    ∧ UnMarshalSdp (lit "ufrag:\nu\npwd:\np\nxcandidate:y\nc\n")
        = some ⟨lit "u", lit "p", [lit "c"]⟩
    ∧ (UnMarshalSdp (lit "ufrag:\nu\npwd:\np\nxcandidate:y\nc\n")).map SDP.candidate
        ≠ some (scanPairs isMarkerLine
            (linesAfterHeader (lit "ufrag:\nu\npwd:\np\nxcandidate:y\nc\n"))) := by
  decide

/-- C3, amended: for every input text the candidates `UnMarshalSdp` returns are
those of pair scanning, up to end of input, over the lines left after the two
header steps, where a line in marker position makes the line after it a candidate
if and only if it contains the text `candidate:`. -/
theorem candidates_scan_contains (txt : GoString) :
    (UnMarshalSdp txt).map SDP.candidate
      = some (scanPairs containsMarker (linesAfterHeader txt)) := by
  have hle := unmarshalHeader_rest_le txt
  have := scan_refines _ (unmarshalHeader txt).2.2 le_rfl (unmarshalHeader txt).2.2.length
    (txt.length + 1) [] le_rfl (by omega)
  simp [UnMarshalSdp, UnMarshalSdpFuel, this, linesAfterHeader]

/-- C4: for every input string `UnMarshalSdp` returns a description; the loop, which
returns only through its `io.EOF` exit, gets there within the fuel the entry point
hands over, and more fuel gives the same description. -/
theorem UnMarshalSdp_returns (txt : GoString) :
    ∃ s, UnMarshalSdp txt = some s ∧ ∀ k, UnMarshalSdpFuel (txt.length + 1 + k) txt = some s := by
  obtain ⟨s, hs⟩ := UnMarshalSdpFuel_terminates (txt.length + 1) txt (by omega)
  exact ⟨s, hs, fun k => UnMarshalSdpFuel_mono _ _ _ hs k⟩

/-- C5, as stated, fails: a value of 4097 bytes without line break comes back cut
to its first 4096 bytes. -/
theorem partial_decode_long_value_fails :
    NoLineBreak (List.replicate 4097 97)
    ∧ UnMarshalSdp (lit "ufrag:" ++ LF :: (List.replicate 4097 97 ++ [LF]))
        ≠ some ⟨List.replicate 4097 97, [], []⟩
    ∧ UnMarshalSdp (lit "ufrag:" ++ LF :: (List.replicate 4097 97 ++ [LF]))
        = some ⟨List.replicate 4096 97, [], []⟩ := by
  refine ⟨by decide!, by decide!, by decide!⟩

/-- C5, amended: for every value `A` without line break and of at most 4096 bytes,
decoding the marker line `ufrag:` followed by the line `A` gives ufrag `A`, an
empty pwd and no candidates. -/
theorem partial_decode_amended (A : GoString) (h : NoLineBreak A) (hlen : A.length ≤ 4096) :
    UnMarshalSdp (lit "ufrag:" ++ LF :: (A ++ [LF])) = some ⟨A, [], []⟩ := by
  have hcr : A.getLast? ≠ some CR := fun hc => h.2 (List.mem_of_getLast?_eq_some hc)
  have h1 : Contains (lit "ufrag:") (lit "ufrag:") = true := by decide
  have h2 : Contains [] (lit "pwd:") = false := by decide
  apply UnMarshalSdp_of_fuel 1
  by_cases hl : A.length ≤ 4095
  · have hA : ReadLine (A ++ [LF]) = ⟨A, false, none, []⟩ := ReadLine_line A [] h.1 hl hcr
    simp [UnMarshalSdpFuel, unmarshalHeader, ReadLine_marker_ufrag, h1, hA, ReadLine_nil, h2,
      candidateLoop]
  · have hA : ReadLine (A ++ [LF]) = ⟨A, true, none, [LF]⟩ :=
      ReadLine_full A [LF] h.1 (by omega) hcr
    have hN : ReadLine [LF] = ⟨[], false, none, []⟩ := by decide
    simp [UnMarshalSdpFuel, unmarshalHeader, ReadLine_marker_ufrag, h1, hA, hN, ReadLine_nil, h2,
      candidateLoop]

theorem partial_decode_amended_witness :
    NoLineBreak (lit "A")
    ∧ UnMarshalSdp (lit "ufrag:" ++ LF :: (lit "A" ++ [LF])) = some ⟨lit "A", [], []⟩ :=
  ⟨by decide, partial_decode_amended (lit "A") (by decide) (by decide)⟩

/-- C9: a description whose ufrag, pwd and candidates contain neither `'\n'` nor
`'\r'` and are at most 4095 bytes long each is reproduced by decoding its
encoding, whether or not a value contains or equals marker text. -/
theorem roundtrip_exact_domain (x : SDP)
    (h : ∀ v ∈ x.values, NoLineBreak v ∧ v.length ≤ 4095) :
    UnMarshalSdp (MarshalSdp x) = some x := by
  have hs : ∀ v ∈ x.values, LineSafe v :=
    fun v hv => LineSafe_of_noLineBreak v (h v hv).1 (h v hv).2
  exact roundtrip_lineSafe x (hs _ (by simp [SDP.values])) (hs _ (by simp [SDP.values]))
    (fun c hc => hs c (by simp [SDP.values, hc]))

theorem roundtrip_exact_domain_witness :
    (∀ v ∈ (SDP.mk (lit "ufrag:") (lit "candidate:") [lit "pwd:", lit "xcandidate:y"]).values,
        NoLineBreak v ∧ v.length ≤ 4095)
    ∧ UnMarshalSdp (MarshalSdp ⟨lit "ufrag:", lit "candidate:", [lit "pwd:", lit "xcandidate:y"]⟩)
        = some ⟨lit "ufrag:", lit "candidate:", [lit "pwd:", lit "xcandidate:y"]⟩ :=
  ⟨by decide, roundtrip_exact_domain _ (by decide)⟩

/-- C10: for a description whose values have no line break and are at most 4095
bytes long, decoding its encoding followed by a `candidate:` marker line without
value line, with or without final newline, gives the same ufrag and pwd and the
candidates followed by one empty string. -/
theorem dangling_candidate_marker (x : SDP)
    (h : ∀ v ∈ x.values, NoLineBreak v ∧ v.length ≤ 4095) :
    UnMarshalSdp (MarshalSdp x ++ lit "candidate:\n")
        = some ⟨x.ufrag, x.pwd, x.candidate ++ [[]]⟩
    ∧ UnMarshalSdp (MarshalSdp x ++ lit "candidate:")
        = some ⟨x.ufrag, x.pwd, x.candidate ++ [[]]⟩ := by
  have hs : ∀ v ∈ x.values, LineSafe v :=
    fun v hv => LineSafe_of_noLineBreak v (h v hv).1 (h v hv).2
  have hu := hs x.ufrag (by simp [SDP.values])
  have hp := hs x.pwd (by simp [SDP.values])
  have hc : ∀ c ∈ x.candidate, LineSafe c := fun c hc => hs c (by simp [SDP.values, hc])
  have r1 : ReadLine (lit "candidate:\n") = ⟨lit "candidate:", false, none, []⟩ := by decide
  have r2 : ReadLine (lit "candidate:") = ⟨lit "candidate:", false, none, []⟩ := by decide
  have hm : Contains (lit "candidate:") (lit "candidate:") = true := by decide
  constructor
  · apply UnMarshalSdp_of_fuel (x.candidate.length + 2)
    rw [UnMarshalSdpFuel_encoded x _ 2 hu hp hc]
    simp [candidateLoop, r1, hm, ReadLine_nil]
  · apply UnMarshalSdp_of_fuel (x.candidate.length + 2)
    rw [UnMarshalSdpFuel_encoded x _ 2 hu hp hc]
    simp [candidateLoop, r2, hm, ReadLine_nil]

theorem dangling_candidate_marker_witness :
    (∀ v ∈ (SDP.mk (lit "u1") (lit "p1") [lit "cand-B"]).values,
        NoLineBreak v ∧ v.length ≤ 4095)
    ∧ UnMarshalSdp (MarshalSdp ⟨lit "u1", lit "p1", [lit "cand-B"]⟩ ++ lit "candidate:\n")
        = some ⟨lit "u1", lit "p1", [lit "cand-B", []]⟩
    ∧ UnMarshalSdp (MarshalSdp ⟨lit "u1", lit "p1", [lit "cand-B"]⟩ ++ lit "candidate:")
        = some ⟨lit "u1", lit "p1", [lit "cand-B", []]⟩ :=
  ⟨by decide, dangling_candidate_marker _ (by decide)⟩

/-! ## The signalling steps -/

theorem addRemoteCandidates_accepted (ice : Ice) (vs : List GoString) (tr : List Call)
    (h : accepted ice tr vs = true) :
    addRemoteCandidates ice vs tr = (tr ++ vs.map Call.AddRemoteCandidate, true) := by
  induction vs generalizing tr with
  | nil => simp [addRemoteCandidates]
  | cons v vs ih =>
    simp only [accepted, Bool.and_eq_true] at h
    obtain ⟨⟨h1, h2⟩, h3⟩ := h
    simp [addRemoteCandidates, h1, h2, ih _ h3]

theorem addRemoteCandidates_calls (ice : Ice) (vs : List GoString) (tr : List Call) :
    ∃ added b, addRemoteCandidates ice vs tr = (tr ++ added.map Call.AddRemoteCandidate, b)
      ∧ added <+: vs ∧ (b = true → added = vs) := by
  induction vs generalizing tr with
  | nil => exact ⟨[], true, by simp [addRemoteCandidates], List.prefix_refl _, fun _ => rfl⟩
  | cons v vs ih =>
    unfold addRemoteCandidates
    split
    · split
      · obtain ⟨added, b, h1, h2, h3⟩ := ih (tr ++ [Call.AddRemoteCandidate v])
        refine ⟨v :: added, b, by simp [h1], ?_, fun hb => by rw [h3 hb]⟩
        obtain ⟨t, ht⟩ := h2
        exact ⟨t, by simp [ht]⟩
      · exact ⟨[v], false, by simp, ⟨vs, by simp⟩, by simp⟩
    · exact ⟨[], false, by simp, List.nil_prefix, by simp⟩

/-- C6: for every response body the responder decodes it and, provided every
decoded candidate parses and is accepted by the agent, calls `AddRemoteCandidate`
once for each decoded candidate in list order and after them `Dial` once, with the
decoded ufrag and pwd; these are all the calls it makes. -/
theorem responder_adds_then_dials (ice : Ice) (body : GoString) (tr : List Call) :
    ∃ sdpr, UnMarshalSdp body = some sdpr ∧
      (accepted ice tr sdpr.candidate = true →
        ∃ out, responderConnect ice body tr
          = some ⟨tr ++ sdpr.candidate.map Call.AddRemoteCandidate
              ++ [Call.Dial sdpr.ufrag sdpr.pwd], out⟩) := by
  obtain ⟨sdpr, hs⟩ := UnMarshalSdpFuel_terminates (body.length + 1) body (by omega)
  refine ⟨sdpr, hs, fun h => ?_⟩
  have hs2 : UnMarshalSdp body = some sdpr := hs
  unfold responderConnect
  rw [hs2]
  simp only
  rw [addRemoteCandidates_accepted ice _ tr h]
  simp only
  split
  · exact ⟨_, rfl⟩
  · exact ⟨_, rfl⟩

theorem responder_adds_then_dials_witness :
    accepted Ice.agreeable [] [lit "cand-B"] = true
    ∧ ∃ out, responderConnect Ice.agreeable (lit "ufrag:\nu1\npwd:\np1\ncandidate:\ncand-B\n") []
        = some ⟨[Call.AddRemoteCandidate (lit "cand-B"), Call.Dial (lit "u1") (lit "p1")],
            out⟩ := by
  obtain ⟨sdpr, hd, h⟩ := responder_adds_then_dials Ice.agreeable
    (lit "ufrag:\nu1\npwd:\np1\ncandidate:\ncand-B\n") []
  have hv : UnMarshalSdp (lit "ufrag:\nu1\npwd:\np1\ncandidate:\ncand-B\n")
      = some ⟨lit "u1", lit "p1", [lit "cand-B"]⟩ := by decide
  rw [hv] at hd
  cases hd
  exact ⟨by decide, h (by decide)⟩

/-- C8: for every POST to `/remoteAuth` of the server variant whose form parses and
carries an `sdp` field, the handler restarts the agent session and hands it the
ufrag and pwd decoded from that request: it calls `Restart` (which takes the
credentials of the local description) and right after it `SetRemoteCredentials`
with the decoded ufrag and pwd, both before `GatherCandidates` and before the
write of the encoded local description.  After `GatherCandidates` it adds decoded
candidates in list order and, when it returns, has added all of them and has
written the encoded local description last. -/
theorem server_rekey_before_gather (ice : Ice) (sdp : SDP) (field : GoString)
    (more : List GoString) (tr : List Call) :
    ∃ sdpr, UnMarshalSdp field = some sdpr ∧
      ∃ added out, serverRemoteAuth ice sdp ⟨false, field :: more⟩ tr
          = some ⟨tr ++ Call.Restart sdp.ufrag sdp.pwd
              :: Call.SetRemoteCredentials sdpr.ufrag sdpr.pwd
              :: Call.GatherCandidates
              :: (added.map Call.AddRemoteCandidate
                  ++ if out = Outcome.returned then [Call.Write (MarshalSdp sdp)] else []),
              out⟩
        ∧ added <+: sdpr.candidate
        ∧ (out = Outcome.returned → added = sdpr.candidate) := by
  obtain ⟨sdpr, hs⟩ := UnMarshalSdpFuel_terminates (field.length + 1) field (by omega)
  have hs2 : UnMarshalSdp field = some sdpr := hs
  refine ⟨sdpr, hs, ?_⟩
  simp only [serverRemoteAuth, hs2]
  by_cases hg : ice.ok (tr ++ [Call.Restart sdp.ufrag sdp.pwd,
      Call.SetRemoteCredentials sdpr.ufrag sdpr.pwd]) Call.GatherCandidates = true
  · obtain ⟨added, b, hr, hp, hb⟩ := addRemoteCandidates_calls ice sdpr.candidate
      (tr ++ [Call.Restart sdp.ufrag sdp.pwd,
        Call.SetRemoteCredentials sdpr.ufrag sdpr.pwd, Call.GatherCandidates])
    cases b
    · exact ⟨added, Outcome.panicked, by simp [hg, hr], hp, by simp⟩
    · exact ⟨added, Outcome.returned, by simp [hg, hr], hp, fun _ => hb rfl⟩
  · exact ⟨[], Outcome.panicked, by simp [hg], List.nil_prefix, by simp⟩

theorem server_rekey_before_gather_witness :
    ∃ added out, serverRemoteAuth Ice.agreeable ⟨lit "u1", lit "p1", [lit "host"]⟩
        ⟨false, [lit "ufrag:\nu2\npwd:\np2\ncandidate:\ncand-A\n"]⟩ []
      = some ⟨[] ++ Call.Restart (lit "u1") (lit "p1")
          :: Call.SetRemoteCredentials (lit "u2") (lit "p2")
          :: Call.GatherCandidates
          :: (added.map Call.AddRemoteCandidate
              ++ if out = Outcome.returned
                then [Call.Write (MarshalSdp ⟨lit "u1", lit "p1", [lit "host"]⟩)] else []),
          out⟩
      ∧ added <+: [lit "cand-A"]
      ∧ (out = Outcome.returned → added = [lit "cand-A"]) := by
  obtain ⟨sdpr, hd, h⟩ := server_rekey_before_gather Ice.agreeable
    ⟨lit "u1", lit "p1", [lit "host"]⟩ (lit "ufrag:\nu2\npwd:\np2\ncandidate:\ncand-A\n") [] []
  have hv : UnMarshalSdp (lit "ufrag:\nu2\npwd:\np2\ncandidate:\ncand-A\n")
      = some ⟨lit "u2", lit "p2", [lit "cand-A"]⟩ := by decide
  rw [hv] at hd
  cases hd
  exact h

/-! ## The hand-off -/

theorem HandoffInv_step (ice : Ice) (sdp sdpr : SDP) (tr : List Call)
    (hacc : accepted ice tr sdpr.candidate = true) (s t : Sys)
    (hs : HandoffInv ice sdp sdpr tr s) (ht : t ∈ next ice sdp s) :
    HandoffInv ice sdp sdpr tr t := by
  cases hs with
  | start r field more hr hd =>
    subst hr
    simp [next, remoteAuthStep, mainStep, hd] at ht
    subst ht
    simpa using (@HandoffInv.adding ice sdp sdpr tr [] sdpr.candidate rfl (by simpa using hacc))
  | adding added todo hc ha =>
    cases todo with
    | nil =>
      simp [next, remoteAuthStep, mainStep] at ht
      subst ht
      have : added = sdpr.candidate := by simpa using hc.symm
      subst this
      simpa using (@HandoffInv.written ice sdp sdpr tr)
    | cons v vs =>
      simp only [accepted, Bool.and_eq_true] at ha
      obtain ⟨⟨h1, h2⟩, h3⟩ := ha
      simp [next, remoteAuthStep, mainStep, h1, h2] at ht
      subst ht
      have := @HandoffInv.adding ice sdp sdpr tr
        (added ++ [v]) vs (by simp [hc]) (by simpa using h3)
      simpa using this
  | written =>
    simp [next, remoteAuthStep, mainStep, chanCap] at ht
    subst ht
    simpa using (@HandoffInv.sentUfrag ice sdp sdpr tr)
  | sentUfrag =>
    simp [next, remoteAuthStep, mainStep, chanCap] at ht
    rcases ht with ht | ht
    · subst ht
      simpa using (@HandoffInv.sentBoth ice sdp sdpr tr)
    · subst ht
      simpa using (@HandoffInv.gotUfragEarly ice sdp sdpr tr)
  | sentBoth =>
    simp [next, remoteAuthStep, mainStep] at ht
    subst ht
    simpa using @HandoffInv.gotUfrag ice sdp sdpr tr
      [Call.Send sdpr.ufrag, Call.Send sdpr.pwd, Call.Recv sdpr.ufrag] (Or.inl rfl)
  | gotUfragEarly =>
    simp [next, remoteAuthStep, mainStep, chanCap] at ht
    subst ht
    simpa using @HandoffInv.gotUfrag ice sdp sdpr tr
      [Call.Send sdpr.ufrag, Call.Recv sdpr.ufrag, Call.Send sdpr.pwd] (Or.inr rfl)
  | gotUfrag mid hm =>
    simp [next, remoteAuthStep, mainStep] at ht
    subst ht
    simpa using @HandoffInv.gotBoth ice sdp sdpr tr mid hm
  | gotBoth mid hm =>
    simp only [next, remoteAuthStep, mainStep] at ht
    cases hok : ice.ok (tr ++ List.map Call.AddRemoteCandidate sdpr.candidate
        ++ [Call.Write (MarshalSdp sdp)] ++ mid ++ [Call.Recv sdpr.pwd])
        (Call.Accept sdpr.ufrag sdpr.pwd)
    · simp only [hok] at ht
      simp at ht
      subst ht
      simpa using @HandoffInv.accepted ice sdp sdpr tr mid
        MainPc.panicked hm (Or.inr rfl)
    · simp only [hok] at ht
      simp at ht
      subst ht
      simpa using @HandoffInv.accepted ice sdp sdpr tr mid
        MainPc.connected hm (Or.inl rfl)
  | accepted mid m hm hmain =>
    rcases hmain with rfl | rfl <;> simp [next, remoteAuthStep, mainStep] at ht

theorem HandoffInv_reachable (ice : Ice) (sdp sdpr : SDP) (tr : List Call)
    (hacc : accepted ice tr sdpr.candidate = true) (s t : Sys)
    (hs : HandoffInv ice sdp sdpr tr s) (ht : Reachable ice sdp s t) :
    HandoffInv ice sdp sdpr tr t := by
  induction ht with
  | refl => exact hs
  | tail _ hstep ih => exact HandoffInv_step ice sdp sdpr tr hacc _ _ ih hstep

theorem HandoffInv_stuck (ice : Ice) (sdp sdpr : SDP) (tr : List Call) (s : Sys)
    (hs : HandoffInv ice sdp sdpr tr s) (hn : next ice sdp s = []) :
    s.handler = HandlerPc.done ∧ (s.main = MainPc.connected ∨ s.main = MainPc.panicked)
      ∧ s.remoteUfrag = sdpr.ufrag ∧ s.remotePwd = sdpr.pwd
      ∧ s.trace ∈ handoffTraces sdp sdpr tr := by
  cases hs with
  | start r field more hr hd =>
    subst hr
    simp [next, remoteAuthStep, mainStep, hd] at hn
  | adding added todo hc ha =>
    cases todo with
    | nil => simp [next, remoteAuthStep, mainStep] at hn
    | cons v vs =>
      simp only [next, remoteAuthStep, mainStep] at hn
      split at hn
      · split at hn <;> simp at hn
      · simp at hn
  | written => simp [next, remoteAuthStep, mainStep, chanCap] at hn
  | sentUfrag => simp [next, remoteAuthStep, mainStep, chanCap] at hn
  | sentBoth => simp [next, remoteAuthStep, mainStep] at hn
  | gotUfragEarly => simp [next, remoteAuthStep, mainStep, chanCap] at hn
  | gotUfrag mid hm => simp [next, remoteAuthStep, mainStep] at hn
  | gotBoth mid hm =>
    simp only [next, remoteAuthStep, mainStep] at hn
    split at hn <;> simp at hn
  | accepted mid m hm hmain =>
    refine ⟨rfl, hmain, rfl, rfl, ?_⟩
    rcases hm with rfl | rfl <;> simp [handoffTraces]

theorem next_stepsLeft (ice : Ice) (sdp : SDP) (s t : Sys) (ht : t ∈ next ice sdp s) :
    stepsLeft t < stepsLeft s := by
  simp only [next, List.mem_append, Option.mem_toList, Option.mem_def] at ht
  rcases ht with ht | ht
  · unfold remoteAuthStep at ht
    split at ht
    · rename_i r hr
      split at ht
      · cases ht
        simp [stepsLeft, hr, handlerLeft]
        split
        · omega
        · split <;> omega
      · split at ht
        · cases ht
          rename_i hf
          simp [stepsLeft, hr, handlerLeft, hf]
        · rename_i field more hf
          split at ht
          · cases ht
          · rename_i d hd
            cases ht
            simp [stepsLeft, hr, handlerLeft, hf, hd]
    · rename_i d v vs hr
      split at ht
      · split at ht <;> cases ht <;> simp [stepsLeft, hr, handlerLeft]
      · cases ht
        simp [stepsLeft, hr, handlerLeft]
    · rename_i d hr
      cases ht
      simp [stepsLeft, hr, handlerLeft]
    · rename_i d hr
      split at ht
      · cases ht
        simp [stepsLeft, hr, handlerLeft]
      · cases ht
    · rename_i d hr
      split at ht
      · cases ht
        simp [stepsLeft, hr, handlerLeft]
      · cases ht
    · cases ht
    · cases ht
  · unfold mainStep at ht
    split at ht
    · rename_i hr
      split at ht
      · cases ht
      · cases ht
        simp [stepsLeft, hr, mainLeft]
    · rename_i hr
      split at ht
      · cases ht
      · cases ht
        simp [stepsLeft, hr, mainLeft]
    · rename_i hr
      split at ht <;> cases ht <;> simp [stepsLeft, hr, mainLeft]
    · cases ht
    · cases ht

theorem exists_terminal (ice : Ice) (sdp : SDP) (n : Nat) :
    ∀ s, stepsLeft s ≤ n → ∃ t, Reachable ice sdp s t ∧ next ice sdp t = [] := by
  induction n with
  | zero =>
    intro s hs
    refine ⟨s, Relation.ReflTransGen.refl, ?_⟩
    cases hn : next ice sdp s with
    | nil => rfl
    | cons t ts =>
      have := next_stepsLeft ice sdp s t (by simp [hn])
      omega
  | succ n ih =>
    intro s hs
    cases hn : next ice sdp s with
    | nil => exact ⟨s, Relation.ReflTransGen.refl, hn⟩
    | cons t ts =>
      have hmem : t ∈ next ice sdp s := by simp [hn]
      have hlt := next_stepsLeft ice sdp s t hmem
      obtain ⟨u, hu, hend⟩ := ih t (by omega)
      exact ⟨u, Relation.ReflTransGen.head hmem hu, hend⟩

/-- C7: for every POST whose form parses and whose `sdp` field decodes to ufrag `u`,
pwd `p` and candidates all of which the agent accepts: every step of handler or
coordinator brings the system nearer to its end, an end is reached, and whenever
both have nothing left to do the handler has added each candidate in list order,
then written the encoded local description, then sent `u` and then `p`, and the
coordinator has received `u`, then `p`, and then called `Accept` once, with `u`
and `p`. -/
theorem initiator_handoff (ice : Ice) (sdp : SDP) (field : GoString) (more : List GoString)
    (tr : List Call) :
    ∃ sdpr, UnMarshalSdp field = some sdpr ∧
      (accepted ice tr sdpr.candidate = true →
        (∀ a b, b ∈ next ice sdp a → stepsLeft b < stepsLeft a)
        ∧ (∃ s, Reachable ice sdp (handoffStart ⟨false, field :: more⟩ tr) s
            ∧ next ice sdp s = [])
        ∧ ∀ s, Reachable ice sdp (handoffStart ⟨false, field :: more⟩ tr) s →
            next ice sdp s = [] →
              s.handler = HandlerPc.done
              ∧ (s.main = MainPc.connected ∨ s.main = MainPc.panicked)
              ∧ s.remoteUfrag = sdpr.ufrag ∧ s.remotePwd = sdpr.pwd
              ∧ s.trace ∈ handoffTraces sdp sdpr tr) := by
  obtain ⟨sdpr, hs⟩ := UnMarshalSdpFuel_terminates (field.length + 1) field (by omega)
  have hs2 : UnMarshalSdp field = some sdpr := hs
  refine ⟨sdpr, hs, fun hacc => ⟨next_stepsLeft ice sdp, exists_terminal ice sdp _ _ le_rfl,
    fun s hr hn => ?_⟩⟩
  have h0 : HandoffInv ice sdp sdpr tr (handoffStart ⟨false, field :: more⟩ tr) :=
    HandoffInv.start _ field more rfl hs2
  exact HandoffInv_stuck ice sdp sdpr tr s (HandoffInv_reachable ice sdp sdpr tr hacc _ _ h0 hr) hn

theorem initiator_handoff_witness :
    accepted Ice.agreeable [] [lit "cand-A"] = true
    ∧ ∃ s, Reachable Ice.agreeable ⟨lit "u1", lit "p1", []⟩
          (handoffStart ⟨false, [lit "ufrag:\nu2\npwd:\np2\ncandidate:\ncand-A\n"]⟩ []) s
        ∧ next Ice.agreeable ⟨lit "u1", lit "p1", []⟩ s = []
        ∧ s.trace ∈ handoffTraces ⟨lit "u1", lit "p1", []⟩
            ⟨lit "u2", lit "p2", [lit "cand-A"]⟩ [] := by
  obtain ⟨sdpr, hd, h⟩ := initiator_handoff Ice.agreeable ⟨lit "u1", lit "p1", []⟩
    (lit "ufrag:\nu2\npwd:\np2\ncandidate:\ncand-A\n") [] []
  have hv : UnMarshalSdp (lit "ufrag:\nu2\npwd:\np2\ncandidate:\ncand-A\n")
      = some ⟨lit "u2", lit "p2", [lit "cand-A"]⟩ := by decide
  rw [hv] at hd
  cases hd
  obtain ⟨-, ⟨s, hr, hn⟩, hall⟩ := h (by decide)
  exact ⟨by decide, s, hr, hn, (hall s hr hn).2.2.2.2⟩

end P2P
